import Mathlib

/-!
Verification of the `pyority` dependency-graph engine
(`src/pyority/scheduler.py`, `src/pyority/nodes.py`).

Boolean sparse matrices (scipy `dok_array` / `csr` / `csc` with dtype `bool`)
are embedded as the finite set of their true entries.  Node weights
(`np.half` in the source) are embedded as rationals.  Nodes are identified
with their insertion index (the source's `idx_to_node` / `node_to_idx`
bijection), since node identity in the source is by object identity.

The source's unbounded `while` loop in `_set_full_dependency_matrices` is
embedded with an explicit fuel argument; we prove the fuel used by
`closureOf` is sufficient, that larger fuel never changes the result, and
the O(log n) bound on the number of squarings actually performed.
-/

namespace Pyority

/-- A boolean matrix, represented as the finite set of coordinates holding
`True` (exactly what a scipy `dok_array` of dtype bool stores). -/
abbrev BoolMat : Type := Finset (ℕ × ℕ)

/-- `n × n` boolean matrix product under OR-AND semantics:
`(A @ B)[i, j] = OR_l (A[i, l] AND B[l, j])`, the product of two `n × n`
sparse boolean matrices in the source. -/
def matMul (n : ℕ) (A B : BoolMat) : BoolMat :=
  (Finset.range n ×ˢ Finset.range n).filter
    (fun e => ∃ l ∈ Finset.range n, (e.1, l) ∈ A ∧ (l, e.2) ∈ B)

/-- The `n × n` boolean identity matrix (`scipy.sparse.identity(n, dtype=bool)`). -/
def idMat (n : ℕ) : BoolMat := (Finset.range n).image (fun i => (i, i))

/-- The state of `scheduler.Graph`.

* `dirty` is `_dirty`.
* `direct_dependencies` is the dok adjacency: `(p, d)` present means node `d`
  directly depends on node `p`.
* `individual_pyorities` is the cached per-node weight vector, one entry per
  registered node in insertion order (its length is the logical node count
  `len(idx_to_node)`; the allocated capacity of the sparse arrays is a
  performance artifact with no semantic content and is not modelled).
* `full_dependency` models both `full_dependency_rows` and
  `full_dependency_cols`: they are the same matrix kept in two layouts.
* `full_pyorities` and `order` are the attributes set by
  `_set_full_pyorities`; `none` models the attribute not existing yet
  (`full_dependency_rows`/`cols` start as `None` in `__init__`). -/
structure Graph where
  dirty : Bool
  direct_dependencies : BoolMat
  individual_pyorities : List ℚ
  full_dependency : Option BoolMat
  full_pyorities : Option (List ℚ)
  order : Option (List ℕ)

/-- `Graph.__init__`. -/
def Graph.init : Graph :=
  { dirty := true
    direct_dependencies := ∅
    individual_pyorities := []
    full_dependency := none
    full_pyorities := none
    order := none }

/-- `Graph.n_nodes` (`len(self.idx_to_node)`; one cached pyority per node). -/
def Graph.n_nodes (g : Graph) : ℕ := g.individual_pyorities.length

/-- `Graph.add_node`.  The node's computed weight `w` (`node.pyority()`)
is what the source stores into `individual_pyorities`; the geometric
capacity growth of the backing arrays is capacity bookkeeping only. -/
def Graph.add_node (g : Graph) (w : ℚ) : Graph :=
  { g with
    dirty := true
    individual_pyorities := g.individual_pyorities ++ [w] }

/-- `Graph.add_node_dependency(this, depends_on_that)`, on node indices
(the source looks the indices up in `node_to_idx`; its
`assert this != depends_on_that` precondition appears as a hypothesis of
the theorems below).  Sets `direct_dependencies[depends_idx, this_idx] = True`. -/
def Graph.add_node_dependency (g : Graph) (this depends_on_that : ℕ) : Graph :=
  { g with
    dirty := true
    direct_dependencies := insert (depends_on_that, this) g.direct_dependencies }

/-- `Graph.nodes_i_depend_on`: the nonzero rows of column `node` of
`direct_dependencies`. -/
def Graph.nodes_i_depend_on (g : Graph) (node : ℕ) : Finset ℕ :=
  (g.direct_dependencies.filter (fun e => e.2 = node)).image Prod.fst

/-- `Graph.nodes_i_fully_depend_on`: the nonzero rows of column `node` of
`full_dependency_cols`, the node itself excluded (`if i != idx`).  Note the
source does NOT call `prepare` here; if the closure was never computed
(`None`), the source crashes, modelled by `none`. -/
def Graph.nodes_i_fully_depend_on (g : Graph) (node : ℕ) : Option (Finset ℕ) :=
  g.full_dependency.map (fun M => ((M.filter (fun e => e.2 = node)).image Prod.fst).erase node)

/-- The direct-dependency matrix truncated to the logical `n_nodes × n_nodes`
shape (the `resize(n_nodes, n_nodes)` step of `_set_full_dependency_matrices`;
for reachable graph states the filter removes nothing). -/
def restrictedEdges (g : Graph) : BoolMat :=
  g.direct_dependencies.filter (fun e => e.1 < g.n_nodes ∧ e.2 < g.n_nodes)

/-- The matrix `M0 = direct_dependencies + Id` that seeds the closure loop in
`_set_full_dependency_matrices`. -/
def initialClosure (g : Graph) : BoolMat :=
  restrictedEdges g ∪ idMat g.n_nodes

/-- The `while nnz != next_nnz` squaring loop of
`_set_full_dependency_matrices`, with explicit fuel.  State `(M, nnz)`
corresponds to the loop's `M` and `nnz`; the returned number counts the
squarings (`M = M @ M` steps) performed.  `closure_loop_fuel_irrelevant`
below shows the fuel supplied by `closureOf` always suffices. -/
def closureLoop (n : ℕ) : ℕ → BoolMat → ℕ → BoolMat × ℕ
  | 0, M, _ => (M, 0)
  | fuel + 1, M, nnz =>
    if M.card = nnz then (M, 0)
    else
      let r := closureLoop n fuel (matMul n M M) M.card
      (r.1, r.2 + 1)

/-- Running the closure loop from its initial state (`nnz = 0`,
`next_nnz = M.nnz`): the resulting matrix together with the number of
squarings performed. -/
def closureRun (g : Graph) : BoolMat × ℕ :=
  closureLoop g.n_nodes (g.n_nodes * g.n_nodes + 2) (initialClosure g) 0

/-- The transitive-closure matrix computed by `_set_full_dependency_matrices`
(stored in both `full_dependency_rows` and `full_dependency_cols`). -/
def closureOf (g : Graph) : BoolMat := (closureRun g).1

/-- The vector `full_pyorities = individual_pyorities @ full_dependency_cols`
computed by `_set_full_pyorities`:
entry `j` is `sum_i pyorities[i] * M[i, j]`. -/
def fullPyoritiesOf (g : Graph) : List ℚ :=
  (List.range g.n_nodes).map (fun j =>
    ∑ i ∈ Finset.range g.n_nodes,
      if (i, j) ∈ closureOf g then g.individual_pyorities.getD i 0 else 0)

/-- `MR[[i]].nnz`: the number of nonzero entries in row `i` of the closure. -/
def rowNnzOf (g : Graph) (i : ℕ) : ℕ :=
  ((closureOf g).filter (fun e => e.1 = i)).card

/-- The full pyority of node `i` as a value (entry `i` of `full_pyorities`). -/
def fpOf (g : Graph) (i : ℕ) : ℚ := (fullPyoritiesOf g).getD i 0

/-- Lexicographic comparison of the sort keys `(-full_pyority, -row_nnz, idx)`;
Python's `sorted` compares tuples ascending lexicographically. -/
def tripleLE (a b : ℚ × ℤ × ℕ) : Bool :=
  decide (a.1 < b.1) || (decide (a.1 = b.1) &&
    (decide (a.2.1 < b.2.1) || (decide (a.2.1 = b.2.1) && decide (a.2.2 ≤ b.2.2))))

/-- The list of tuples `(-fp, -MR[[i]].nnz, i)` built in `_set_full_pyorities`. -/
def sortKeys (g : Graph) : List (ℚ × ℤ × ℕ) :=
  (List.range g.n_nodes).map (fun i => (-fpOf g i, (-(rowNnzOf g i : ℤ), i)))

/-- `self.order`: node indices sorted by the tuples above (the source sorts
the tuples and keeps the third component). -/
def orderOf (g : Graph) : List ℕ :=
  ((sortKeys g).mergeSort tripleLE).map (fun t => t.2.2)

/-- `Graph.prepare`: recompute the derived data when dirty, then clear the
flag; a no-op otherwise.  (`_set_full_pyorities` also asserts the cached
pyorities are non-negative; that precondition appears as a hypothesis of the
theorems that need it.) -/
def Graph.prepare (g : Graph) : Graph :=
  if g.dirty then
    { g with
      dirty := false
      full_dependency := some (closureOf g)
      full_pyorities := some (fullPyoritiesOf g)
      order := some (orderOf g) }
  else g

/-- `Graph.__iter__`: calls `prepare`, then yields `self.order`. -/
def Graph.iterNodes (g : Graph) : List ℕ := ((g.prepare).order).getD []

/-- Well-formedness of a reachable graph state: every registered edge joins
two distinct registered nodes (guaranteed by the asserts in
`add_node_dependency` plus `node_to_idx` lookups). -/
abbrev Graph.WF (g : Graph) : Prop :=
  ∀ e ∈ g.direct_dependencies, e.1 < g.n_nodes ∧ e.2 < g.n_nodes ∧ e.1 ≠ e.2

/-- The set returned by a full-predecessor query on a graph prepared from
state `g`: nonzero rows of column `i` of the closure, minus `i` itself. -/
def fullPredsOf (g : Graph) (i : ℕ) : Finset ℕ :=
  (((closureOf g).filter (fun e => e.2 = i)).image Prod.fst).erase i

/-! ### The node layer (`nodes.py`) -/

/-- Failure of the `assert val >= 0` precondition in `GraphNode.pyority`. -/
inductive PyErr : Type
  | precondition : PyErr
deriving DecidableEq

/-- The wrapped caller data of a node: it optionally exposes a `pyority()`
accessor (duck-typed in the source via `getattr(self.data, 'pyority', None)`);
the accessor is modelled by the value it returns. -/
structure TaskData where
  pyority : Option ℚ
deriving DecidableEq

/-- `GraphNode`: wraps arbitrary caller data. -/
structure GraphNode where
  data : TaskData
deriving DecidableEq

/-- `GraphNode.pyority`: use the data's accessor if available (asserting the
returned value is non-negative), otherwise `0.0`. -/
def GraphNode.pyority (nd : GraphNode) : Except PyErr ℚ :=
  match nd.data.pyority with
  | some val => if 0 ≤ val then Except.ok val else Except.error PyErr.precondition
  | none => Except.ok 0

/-- Errors raised by the `TaskStart.end` / `TaskEnd.start` properties:
setting a link twice, or reading a link never set. -/
inductive LinkErr : Type
  | invalidState : LinkErr
  | notAssociated : LinkErr
deriving DecidableEq

/-- `TaskStart`: `end_` models the weak reference `_end` by the index of its
referent (`none` = not yet associated). -/
structure TaskStart where
  data : TaskData
  end_ : Option ℕ
deriving DecidableEq

/-- The `TaskStart.end` property getter. -/
def TaskStart.get_end (s : TaskStart) : Except LinkErr ℕ :=
  match s.end_ with
  | none => Except.error LinkErr.notAssociated
  | some r => Except.ok r

/-- The `TaskStart.end` property setter ("this can be done only once"). -/
def TaskStart.set_end (s : TaskStart) (e : ℕ) : Except LinkErr TaskStart :=
  match s.end_ with
  | some _ => Except.error LinkErr.invalidState
  | none => Except.ok { s with end_ := some e }

/-- `TaskEnd`: `start_` models the weak reference `_start`. -/
structure TaskEnd where
  data : TaskData
  start_ : Option ℕ
deriving DecidableEq

/-- The `TaskEnd.start` property getter. -/
def TaskEnd.get_start (t : TaskEnd) : Except LinkErr ℕ :=
  match t.start_ with
  | none => Except.error LinkErr.notAssociated
  | some r => Except.ok r

/-- The `TaskEnd.start` property setter ("this can be done only once"). -/
def TaskEnd.set_start (t : TaskEnd) (s : ℕ) : Except LinkErr TaskEnd :=
  match t.start_ with
  | some _ => Except.error LinkErr.invalidState
  | none => Except.ok { t with start_ := some s }

/-- `TaskEnd.pyority` always reports zero, regardless of wrapped data. -/
def TaskEnd.pyority (_t : TaskEnd) : ℚ := 0

/-! ### The scheduler layer (`Scheduler`) -/

/-- `TaskNodePair`: the start/end node indices of one task plus its
registered subtask pairs, in call order. -/
structure TaskNodePair where
  start : ℕ
  end_ : ℕ
  subtasks : List TaskNodePair

/-- `Scheduler.add_task(task)` with no subtasks: create the start node (with
the task's weight `w`) and the end node (weight 0, by `TaskEnd.pyority`),
and add the mandatory edge "end depends on start". -/
def Scheduler.add_task_pair (g : Graph) (w : ℚ) : Graph × TaskNodePair :=
  let s := g.n_nodes
  let g1 := g.add_node w
  let g2 := g1.add_node 0
  let g3 := g2.add_node_dependency (s + 1) s
  (g3, { start := s, end_ := s + 1, subtasks := [] })

/-- `Scheduler.add_subtasks(parent_pair, *subtasks)`: for each subtask build
its pair (`self.add_task(task)` with no further subtasks), wire
"subtask start depends on parent start" and "parent end depends on subtask
end", and register it under the parent.  Returns the updated graph and the
updated parent pair. -/
def Scheduler.add_subtasks (g : Graph) (parent : TaskNodePair) (ws : List ℚ) :
    Graph × TaskNodePair :=
  ws.foldl
    (fun acc w =>
      let r := Scheduler.add_task_pair acc.1 w
      let g1 := r.1.add_node_dependency r.2.start acc.2.start
      let g2 := g1.add_node_dependency acc.2.end_ r.2.end_
      (g2, { acc.2 with subtasks := acc.2.subtasks ++ [r.2] }))
    (g, parent)

/-- `Scheduler.add_task(task, *subtasks)` (for an empty subtask list,
`add_subtasks` folds zero times, matching the source's `if subtasks:` guard). -/
def Scheduler.add_task (g : Graph) (w : ℚ) (ws : List ℚ) : Graph × TaskNodePair :=
  let r := Scheduler.add_task_pair g w
  Scheduler.add_subtasks r.1 r.2 ws

/-- `Scheduler.add_task_dependency(this, depends_on_that)`:
`this.start` depends on `depends_on_that.end`. -/
def Scheduler.add_task_dependency (g : Graph) (this depends_on_that : TaskNodePair) : Graph :=
  g.add_node_dependency this.start depends_on_that.end_

/-! ### Reachability: the specification the closure loop is checked against -/

/-- `reach E k i j`: there is a chain of at most `k` edges of `E` from `i`
to `j`, each edge `(a, b) ∈ E` traversed from prerequisite `a` to
dependent `b`. -/
def reach (E : BoolMat) : ℕ → ℕ → ℕ → Prop
  | 0, i, j => i = j
  | k + 1, i, j => reach E k i j ∨ ∃ l, reach E k i l ∧ (l, j) ∈ E

/-- Iterated boolean squaring: `powSq n M t` is `M` raised to the power
`2 ^ t` under OR-AND semantics, the matrix held by the closure loop after
`t` squarings. -/
def powSq (n : ℕ) (M : BoolMat) : ℕ → BoolMat
  | 0 => M
  | t + 1 => matMul n (powSq n M t) (powSq n M t)

/-! ### Basic facts about `reach` -/

theorem reach_zero_iff {E : BoolMat} {i j : ℕ} : reach E 0 i j ↔ i = j := Iff.rfl

theorem reach_succ_iff {E : BoolMat} {k i j : ℕ} :
    reach E (k + 1) i j ↔ reach E k i j ∨ ∃ l, reach E k i l ∧ (l, j) ∈ E := Iff.rfl

theorem reach_mono {E : BoolMat} {k m i j : ℕ} (hkm : k ≤ m) (h : reach E k i j) :
    reach E m i j := by
  induction hkm with
  | refl => exact h
  | step _ ih => exact Or.inl ih

theorem reach_comp {E : BoolMat} {a b i l j : ℕ} (h1 : reach E a i l) (h2 : reach E b l j) :
    reach E (a + b) i j := by
  induction b generalizing j with
  | zero =>
    rw [reach_zero_iff] at h2
    exact h2 ▸ h1
  | succ b ih =>
    rcases h2 with h | ⟨m, hm, hmj⟩
    · exact reach_mono (Nat.le_succ _) (ih h)
    · exact Or.inr ⟨m, ih hm, hmj⟩

theorem reach_split {E : BoolMat} {a b i j : ℕ} (h : reach E (a + b) i j) :
    ∃ l, reach E a i l ∧ reach E b l j := by
  induction b generalizing j with
  | zero => exact ⟨j, h, rfl⟩
  | succ b ih =>
    rcases h with h | ⟨m, hm, hmj⟩
    · obtain ⟨l, h1, h2⟩ := ih h
      exact ⟨l, h1, Or.inl h2⟩
    · obtain ⟨l, h1, h2⟩ := ih hm
      exact ⟨l, h1, Or.inr ⟨m, h2, hmj⟩⟩

theorem reach_target {E : BoolMat} {k i j : ℕ} (h : reach E k i j) :
    i = j ∨ ∃ e ∈ E, e.2 = j := by
  induction k with
  | zero => exact Or.inl h
  | succ k ih =>
    rcases h with h | ⟨l, _, hl⟩
    · exact ih h
    · exact Or.inr ⟨(l, j), hl, rfl⟩

theorem reach_source {E : BoolMat} {k i j : ℕ} (h : reach E k i j) :
    i = j ∨ ∃ e ∈ E, e.1 = i := by
  induction k generalizing j with
  | zero => exact Or.inl h
  | succ k ih =>
    rcases h with h | ⟨l, hl, hlj⟩
    · exact ih h
    · rcases ih hl with heq | h
      · exact Or.inr ⟨(l, j), hlj, heq.symm⟩
      · exact Or.inr h

theorem reach_iff_reflTransGen {E : BoolMat} {i j : ℕ} :
    (∃ k, reach E k i j) ↔ Relation.ReflTransGen (fun a b => (a, b) ∈ E) i j := by
  constructor
  · rintro ⟨k, h⟩
    induction k generalizing j with
    | zero =>
      rw [reach_zero_iff] at h
      exact h ▸ Relation.ReflTransGen.refl
    | succ k ih =>
      rcases h with h | ⟨l, hl, hlj⟩
      · exact ih h
      · exact Relation.ReflTransGen.tail (ih hl) hlj
  · intro h
    induction h with
    | refl => exact ⟨0, rfl⟩
    | tail _ he ih =>
      obtain ⟨k, hk⟩ := ih
      exact ⟨k + 1, Or.inr ⟨_, hk, he⟩⟩

theorem reach_lt_n {n : ℕ} {E : BoolMat} (hE : ∀ e ∈ E, e.1 < n ∧ e.2 < n)
    {k i j : ℕ} (hi : i < n) (h : reach E k i j) : j < n := by
  rcases reach_target h with heq | ⟨e, he, h2⟩
  · exact heq ▸ hi
  · exact h2 ▸ (hE e he).2

theorem reach_stabilize {n : ℕ} {E : BoolMat} (hE : ∀ e ∈ E, e.1 < n ∧ e.2 < n)
    {i : ℕ} (hi : i < n) {m j : ℕ} (hm : n ≤ m) : reach E m i j ↔ reach E n i j := by
  classical
  constructor
  swap
  · exact fun h => reach_mono hm h
  intro h
  set T : ℕ → Finset ℕ := fun k => (Finset.range n).filter (fun j => reach E k i j) with hT
  have hTmem : ∀ k j, j ∈ T k ↔ j < n ∧ reach E k i j := by
    intro k j
    simp [hT, Finset.mem_filter, Finset.mem_range]
  have hTsub : ∀ k, T k ⊆ T (k + 1) := by
    intro k j hj
    rw [hTmem] at hj ⊢
    exact ⟨hj.1, Or.inl hj.2⟩
  have hTstep : ∀ k, T (k + 1) =
      T k ∪ (Finset.range n).filter (fun j => ∃ l ∈ T k, (l, j) ∈ E) := by
    intro k
    ext j
    rw [Finset.mem_union, hTmem, hTmem, Finset.mem_filter, Finset.mem_range]
    constructor
    · rintro ⟨hjn, h | ⟨l, hl, hlj⟩⟩
      · exact Or.inl ⟨hjn, h⟩
      · exact Or.inr ⟨hjn, l, (hTmem k l).2 ⟨reach_lt_n hE hi hl, hl⟩, hlj⟩
    · rintro (⟨hjn, h⟩ | ⟨hjn, l, hl, hlj⟩)
      · exact ⟨hjn, Or.inl h⟩
      · exact ⟨hjn, Or.inr ⟨l, ((hTmem k l).1 hl).2, hlj⟩⟩
  have hfix : ∀ k, T k = T (k + 1) → ∀ m', k ≤ m' → T m' = T k := by
    intro k hk m' hm'
    induction m', hm' using Nat.le_induction with
    | base => rfl
    | succ m' hm' ih =>
      calc T (m' + 1)
          = T m' ∪ (Finset.range n).filter (fun j => ∃ l ∈ T m', (l, j) ∈ E) := hTstep m'
        _ = T k ∪ (Finset.range n).filter (fun j => ∃ l ∈ T k, (l, j) ∈ E) := by rw [ih]
        _ = T (k + 1) := (hTstep k).symm
        _ = T k := hk.symm
  have hgrow : ∀ k, T k = T (k + 1) ∨ k + 1 ≤ (T k).card := by
    intro k
    induction k with
    | zero =>
      refine Or.inr (Finset.one_le_card.mpr ⟨i, ?_⟩)
      rw [hTmem]
      exact ⟨hi, rfl⟩
    | succ k ih =>
      rcases ih with heq | hc
      · exact Or.inl (by rw [hfix k heq (k + 1) k.le_succ, hfix k heq (k + 2) (by omega)])
      · by_cases heq : T k = T (k + 1)
        · exact Or.inl (by rw [hfix k heq (k + 1) k.le_succ, hfix k heq (k + 2) (by omega)])
        · refine Or.inr ?_
          have := Finset.card_lt_card (Finset.ssubset_iff_subset_ne.mpr ⟨hTsub k, heq⟩)
          omega
  have hstab : T n = T (n + 1) := by
    rcases hgrow n with heq | hc
    · exact heq
    · have : (T n).card ≤ n := le_trans (Finset.card_filter_le _ _) (by simp)
      omega
  have hjn : j < n := reach_lt_n hE hi h
  have : j ∈ T m := (hTmem m j).2 ⟨hjn, h⟩
  rw [hfix n hstab m hm] at this
  exact ((hTmem n j).1 this).2

/-! ### Entry characterization of the squaring sequence -/

theorem matMul_mem {n : ℕ} {A B : BoolMat} {i j : ℕ} :
    (i, j) ∈ matMul n A B ↔
      i < n ∧ j < n ∧ ∃ l, l < n ∧ (i, l) ∈ A ∧ (l, j) ∈ B := by
  simp only [matMul, Finset.mem_filter, Finset.mem_product, Finset.mem_range]
  tauto

theorem idMat_mem {n i j : ℕ} : (i, j) ∈ idMat n ↔ i = j ∧ i < n := by
  simp only [idMat, Finset.mem_image, Finset.mem_range, Prod.mk.injEq]
  constructor
  · rintro ⟨a, ha, rfl, rfl⟩
    exact ⟨rfl, ha⟩
  · rintro ⟨rfl, hi⟩
    exact ⟨i, hi, rfl, rfl⟩

theorem restrictedEdges_bounded (g : Graph) :
    ∀ e ∈ restrictedEdges g, e.1 < g.n_nodes ∧ e.2 < g.n_nodes := by
  intro e he
  exact (Finset.mem_filter.mp he).2

theorem restrictedEdges_eq_of_wf {g : Graph} (hwf : g.WF) :
    restrictedEdges g = g.direct_dependencies := by
  apply Finset.filter_true_of_mem
  intro e he
  exact ⟨(hwf e he).1, (hwf e he).2.1⟩

theorem initialClosure_mem {g : Graph} {i j : ℕ} :
    (i, j) ∈ initialClosure g ↔
      (i, j) ∈ restrictedEdges g ∨ (i = j ∧ i < g.n_nodes) := by
  rw [initialClosure, Finset.mem_union, idMat_mem]

theorem powSq_mem {n : ℕ} {E : BoolMat} (hE : ∀ e ∈ E, e.1 < n ∧ e.2 < n)
    {t i j : ℕ} :
    (i, j) ∈ powSq n (E ∪ idMat n) t ↔ i < n ∧ j < n ∧ reach E (2 ^ t) i j := by
  induction t generalizing i j with
  | zero =>
    rw [powSq, Finset.mem_union, idMat_mem]
    constructor
    · rintro (h | ⟨rfl, hi⟩)
      · exact ⟨(hE _ h).1, (hE _ h).2, Or.inr ⟨i, rfl, h⟩⟩
      · exact ⟨hi, hi, Or.inl rfl⟩
    · rintro ⟨hi, hj, h | ⟨l, rfl, hl⟩⟩
      · exact Or.inr ⟨h, hi⟩
      · exact Or.inl hl
  | succ t ih =>
    rw [powSq, matMul_mem]
    constructor
    · rintro ⟨hi, hj, l, hln, h1, h2⟩
      refine ⟨hi, hj, ?_⟩
      have h1' := (ih.mp h1).2.2
      have h2' := (ih.mp h2).2.2
      have := reach_comp h1' h2'
      rwa [pow_succ, Nat.mul_two]
    · rintro ⟨hi, hj, h⟩
      rw [pow_succ, Nat.mul_two] at h
      obtain ⟨l, h1, h2⟩ := reach_split h
      have hln : l < n := reach_lt_n hE hi h1
      exact ⟨hi, hj, l, hln, ih.mpr ⟨hi, hln, h1⟩, ih.mpr ⟨hln, hj, h2⟩⟩

theorem powSq_subset_succ {n : ℕ} {E : BoolMat} (hE : ∀ e ∈ E, e.1 < n ∧ e.2 < n)
    (t : ℕ) : powSq n (E ∪ idMat n) t ⊆ powSq n (E ∪ idMat n) (t + 1) := by
  intro e he
  obtain ⟨i, j⟩ := e
  rw [powSq_mem hE] at he ⊢
  exact ⟨he.1, he.2.1, reach_mono (Nat.pow_le_pow_right (by norm_num) (Nat.le_succ t)) he.2.2⟩

theorem powSq_eq_of_le {n : ℕ} {E : BoolMat} (hE : ∀ e ∈ E, e.1 < n ∧ e.2 < n)
    {t : ℕ} (ht : n ≤ 2 ^ t) :
    powSq n (E ∪ idMat n) (t + 1) = powSq n (E ∪ idMat n) t := by
  ext e
  obtain ⟨i, j⟩ := e
  rw [powSq_mem hE, powSq_mem hE]
  constructor
  · rintro ⟨hi, hj, h⟩
    refine ⟨hi, hj, ?_⟩
    rw [reach_stabilize hE hi ht]
    rw [reach_stabilize hE hi (le_trans ht (Nat.pow_le_pow_right (by norm_num) (Nat.le_succ t)))] at h
    exact h
  · rintro ⟨hi, hj, h⟩
    exact ⟨hi, hj, reach_mono (Nat.pow_le_pow_right (by norm_num) (Nat.le_succ t)) h⟩

theorem powSq_stab_exists {n : ℕ} {E : BoolMat} (hE : ∀ e ∈ E, e.1 < n ∧ e.2 < n) :
    ∃ t, (powSq n (E ∪ idMat n) (t + 1)).card = (powSq n (E ∪ idMat n) t).card := by
  exact ⟨n, by rw [powSq_eq_of_le hE (le_of_lt (Nat.lt_two_pow n))]⟩

theorem powSq_stab_ge {n : ℕ} {E : BoolMat} (hE : ∀ e ∈ E, e.1 < n ∧ e.2 < n)
    (hex : ∃ t, (powSq n (E ∪ idMat n) (t + 1)).card = (powSq n (E ∪ idMat n) t).card) :
    ∀ m, Nat.find hex ≤ m →
      powSq n (E ∪ idMat n) m = powSq n (E ∪ idMat n) (Nat.find hex) := by
  have hstab : powSq n (E ∪ idMat n) (Nat.find hex + 1) = powSq n (E ∪ idMat n) (Nat.find hex) :=
    (Finset.eq_of_subset_of_card_le (powSq_subset_succ hE _)
      (le_of_eq (Nat.find_spec hex))).symm
  intro m hm
  induction m, hm using Nat.le_induction with
  | base => rfl
  | succ m hm ih => rw [powSq, ih, ← powSq, hstab]

theorem closureLoop_run {n : ℕ} {E : BoolMat}
    (hex : ∃ t, (powSq n (E ∪ idMat n) (t + 1)).card = (powSq n (E ∪ idMat n) t).card) :
    ∀ fuel t, t ≤ Nat.find hex → Nat.find hex - t < fuel →
      closureLoop n fuel (powSq n (E ∪ idMat n) (t + 1)) (powSq n (E ∪ idMat n) t).card =
        (powSq n (E ∪ idMat n) (Nat.find hex + 1), Nat.find hex - t) := by
  intro fuel
  induction fuel with
  | zero =>
    intro t ht hf
    omega
  | succ fuel ih =>
    intro t ht hf
    by_cases hc : (powSq n (E ∪ idMat n) (t + 1)).card = (powSq n (E ∪ idMat n) t).card
    · have h1 : Nat.find hex ≤ t := Nat.find_min' hex hc
      have ht' : t = Nat.find hex := le_antisymm ht h1
      subst ht'
      rw [closureLoop, if_pos hc, Nat.sub_self]
    · have htlt : t < Nat.find hex :=
        lt_of_le_of_ne ht (fun hteq => hc (by rw [hteq]; exact Nat.find_spec hex))
      rw [closureLoop, if_neg hc]
      rw [show matMul n (powSq n (E ∪ idMat n) (t + 1)) (powSq n (E ∪ idMat n) (t + 1)) =
        powSq n (E ∪ idMat n) (t + 1 + 1) from rfl]
      rw [ih (t + 1) htlt (by omega)]
      have hsub : Nat.find hex - (t + 1) + 1 = Nat.find hex - t := by omega
      simp only [hsub]

theorem closureLoop_top (g : Graph) (hn : 1 ≤ g.n_nodes)
    (hex : ∃ t, (powSq g.n_nodes (restrictedEdges g ∪ idMat g.n_nodes) (t + 1)).card =
      (powSq g.n_nodes (restrictedEdges g ∪ idMat g.n_nodes) t).card) :
    ∀ fuel, Nat.find hex + 2 ≤ fuel →
      closureLoop g.n_nodes fuel (initialClosure g) 0 =
        (powSq g.n_nodes (restrictedEdges g ∪ idMat g.n_nodes) (Nat.find hex + 1),
          Nat.find hex + 1) := by
  intro fuel hf
  obtain ⟨fuel', rfl⟩ : ∃ f, fuel = f + 1 := ⟨fuel - 1, by omega⟩
  have hM0 : ¬((initialClosure g).card = 0) := by
    have h1 : (0, 0) ∈ idMat g.n_nodes := idMat_mem.mpr ⟨rfl, by omega⟩
    have h2 : (0, 0) ∈ initialClosure g := Finset.mem_union_right _ h1
    simp [Finset.card_eq_zero]
    exact Finset.ne_empty_of_mem h2
  rw [closureLoop, if_neg hM0]
  rw [show matMul g.n_nodes (initialClosure g) (initialClosure g) =
    powSq g.n_nodes (restrictedEdges g ∪ idMat g.n_nodes) (0 + 1) from rfl]
  rw [show (initialClosure g).card =
    (powSq g.n_nodes (restrictedEdges g ∪ idMat g.n_nodes) 0).card from rfl]
  rw [closureLoop_run hex fuel' 0 (Nat.zero_le _) (by omega)]
  rw [Nat.sub_zero]

theorem initialClosure_of_zero (g : Graph) (hn : g.n_nodes = 0) : initialClosure g = ∅ := by
  rw [initialClosure]
  have h1 : restrictedEdges g = ∅ := by
    rw [restrictedEdges, Finset.filter_eq_empty_iff]
    intro e _
    omega
  have h2 : idMat g.n_nodes = ∅ := by
    rw [hn, idMat]
    simp
  rw [h1, h2]
  simp

theorem closureRun_of_zero (g : Graph) (hn : g.n_nodes = 0) : closureRun g = (∅, 0) := by
  rw [closureRun, initialClosure_of_zero g hn, hn]
  rfl

theorem closureOf_run (g : Graph) (hn : 1 ≤ g.n_nodes) :
    ∃ T, closureRun g = (powSq g.n_nodes (restrictedEdges g ∪ idMat g.n_nodes) (T + 1), T + 1) ∧
      T ≤ Nat.clog 2 g.n_nodes ∧ T ≤ g.n_nodes ∧
      (∀ m, T ≤ m → powSq g.n_nodes (restrictedEdges g ∪ idMat g.n_nodes) m =
        powSq g.n_nodes (restrictedEdges g ∪ idMat g.n_nodes) T) ∧
      (∀ fuel, T + 2 ≤ fuel →
        closureLoop g.n_nodes fuel (initialClosure g) 0 = closureRun g) := by
  have hE := restrictedEdges_bounded g
  have hex := powSq_stab_exists hE
  have hTn : Nat.find hex ≤ g.n_nodes :=
    Nat.find_min' hex (by rw [powSq_eq_of_le hE (le_of_lt (Nat.lt_two_pow _))])
  have hTsq : Nat.find hex ≤ g.n_nodes * g.n_nodes :=
    le_trans hTn (Nat.le_mul_of_pos_left g.n_nodes hn)
  have hrun : closureRun g =
      (powSq g.n_nodes (restrictedEdges g ∪ idMat g.n_nodes) (Nat.find hex + 1),
        Nat.find hex + 1) := by
    rw [closureRun]
    exact closureLoop_top g hn hex (g.n_nodes * g.n_nodes + 2) (by omega)
  refine ⟨Nat.find hex, hrun, ?_, hTn, powSq_stab_ge hE hex, ?_⟩
  · exact Nat.find_min' hex
      (by rw [powSq_eq_of_le hE (Nat.le_pow_clog (by norm_num) _)])
  · intro fuel hfuel
    rw [hrun]
    exact closureLoop_top g hn hex fuel (by omega)

theorem closure_mem {g : Graph} {i j : ℕ} :
    (i, j) ∈ closureOf g ↔
      i < g.n_nodes ∧ j < g.n_nodes ∧ ∃ k, reach (restrictedEdges g) k i j := by
  rcases Nat.eq_zero_or_pos g.n_nodes with hn | hn
  · rw [closureOf, closureRun_of_zero g hn]
    simp [hn]
  · obtain ⟨T, hrun, _, _, hstab, _⟩ := closureOf_run g hn
    have hC : closureOf g = powSq g.n_nodes (restrictedEdges g ∪ idMat g.n_nodes) (T + 1) := by
      rw [closureOf, hrun]
    rw [hC, powSq_mem (restrictedEdges_bounded g)]
    constructor
    · rintro ⟨hi, hj, h⟩
      exact ⟨hi, hj, 2 ^ (T + 1), h⟩
    · rintro ⟨hi, hj, k, h⟩
      refine ⟨hi, hj, ?_⟩
      have h2 : reach (restrictedEdges g) (2 ^ (T + 1 + k)) i j :=
        reach_mono (le_trans (le_trans (Nat.le_add_left k (T + 1)) (Nat.le_of_lt (Nat.lt_two_pow _)))
          (le_refl _)) h
      have hmem : (i, j) ∈ powSq g.n_nodes (restrictedEdges g ∪ idMat g.n_nodes) (T + 1 + k) :=
        (powSq_mem (restrictedEdges_bounded g)).mpr ⟨hi, hj, h2⟩
      rw [hstab (T + 1 + k) (by omega), ← hstab (T + 1) (by omega)] at hmem
      exact ((powSq_mem (restrictedEdges_bounded g)).mp hmem).2.2

theorem closure_sub_range {g : Graph} {i j : ℕ} (h : (i, j) ∈ closureOf g) :
    i < g.n_nodes ∧ j < g.n_nodes :=
  ⟨(closure_mem.mp h).1, (closure_mem.mp h).2.1⟩

theorem closure_refl {g : Graph} {i : ℕ} (hi : i < g.n_nodes) : (i, i) ∈ closureOf g :=
  closure_mem.mpr ⟨hi, hi, 0, rfl⟩

theorem closure_fixpoint (g : Graph) :
    matMul g.n_nodes (closureOf g) (closureOf g) = closureOf g := by
  rcases Nat.eq_zero_or_pos g.n_nodes with hn | hn
  · rw [closureOf, closureRun_of_zero g hn]
    ext e
    simp [matMul, hn]
  · obtain ⟨T, hrun, _, _, hstab, _⟩ := closureOf_run g hn
    have hC : closureOf g = powSq g.n_nodes (restrictedEdges g ∪ idMat g.n_nodes) (T + 1) := by
      rw [closureOf, hrun]
    rw [hC]
    rw [show matMul g.n_nodes (powSq g.n_nodes (restrictedEdges g ∪ idMat g.n_nodes) (T + 1))
      (powSq g.n_nodes (restrictedEdges g ∪ idMat g.n_nodes) (T + 1)) =
      powSq g.n_nodes (restrictedEdges g ∪ idMat g.n_nodes) (T + 1 + 1) from rfl]
    rw [hstab (T + 1 + 1) (by omega), hstab (T + 1) (by omega)]

theorem closure_trans {g : Graph} {i p d : ℕ} (h1 : (i, p) ∈ closureOf g)
    (h2 : (p, d) ∈ closureOf g) : (i, d) ∈ closureOf g := by
  rw [← closure_fixpoint g]
  exact matMul_mem.mpr ⟨(closure_sub_range h1).1, (closure_sub_range h2).2,
    p, (closure_sub_range h1).2, h1, h2⟩

/-! ### Facts about `prepare` and the queries -/

theorem prepare_of_dirty {g : Graph} (hd : g.dirty = true) :
    g.prepare =
      { g with
        dirty := false
        full_dependency := some (closureOf g)
        full_pyorities := some (fullPyoritiesOf g)
        order := some (orderOf g) } := by
  rw [Graph.prepare, if_pos hd]

theorem prepare_of_clean {g : Graph} (hd : g.dirty = false) : g.prepare = g := by
  rw [Graph.prepare, if_neg (by simp [hd])]

theorem prepare_dirty_false (g : Graph) : (g.prepare).dirty = false := by
  cases hb : g.dirty with
  | false => rw [prepare_of_clean hb, hb]
  | true => rw [prepare_of_dirty hb]

theorem prepare_direct (g : Graph) :
    (g.prepare).direct_dependencies = g.direct_dependencies := by
  cases hb : g.dirty with
  | false => rw [prepare_of_clean hb]
  | true => rw [prepare_of_dirty hb]

theorem prepare_pyorities (g : Graph) :
    (g.prepare).individual_pyorities = g.individual_pyorities := by
  cases hb : g.dirty with
  | false => rw [prepare_of_clean hb]
  | true => rw [prepare_of_dirty hb]

theorem prepare_full_dependency {g : Graph} (hd : g.dirty = true) :
    (g.prepare).full_dependency = some (closureOf g) := by
  rw [prepare_of_dirty hd]

theorem prepare_order {g : Graph} (hd : g.dirty = true) :
    (g.prepare).order = some (orderOf g) := by
  rw [prepare_of_dirty hd]

theorem prepare_full_pyorities {g : Graph} (hd : g.dirty = true) :
    (g.prepare).full_pyorities = some (fullPyoritiesOf g) := by
  rw [prepare_of_dirty hd]

theorem nodes_i_fully_prepare {g : Graph} (hd : g.dirty = true) (i : ℕ) :
    (g.prepare).nodes_i_fully_depend_on i = some (fullPredsOf g i) := by
  rw [Graph.nodes_i_fully_depend_on, prepare_full_dependency hd]
  rfl

theorem fullPredsOf_mem {g : Graph} {i p : ℕ} :
    p ∈ fullPredsOf g i ↔ p ≠ i ∧ (p, i) ∈ closureOf g := by
  simp only [fullPredsOf, Finset.mem_erase, Finset.mem_image, Finset.mem_filter]
  constructor
  · rintro ⟨hpi, e, ⟨he, h2⟩, h1⟩
    obtain ⟨a, b⟩ := e
    simp only at h1 h2
    subst h1
    subst h2
    exact ⟨hpi, he⟩
  · rintro ⟨hpi, hmem⟩
    exact ⟨hpi, (p, i), ⟨hmem, rfl⟩, rfl⟩

theorem nodes_i_depend_on_mem {g : Graph} {i q : ℕ} :
    q ∈ g.nodes_i_depend_on i ↔ (q, i) ∈ g.direct_dependencies := by
  simp only [Graph.nodes_i_depend_on, Finset.mem_image, Finset.mem_filter]
  constructor
  · rintro ⟨e, ⟨he, h2⟩, h1⟩
    obtain ⟨a, b⟩ := e
    simp only at h1 h2
    subst h1
    subst h2
    exact he
  · intro h
    exact ⟨(q, i), ⟨h, rfl⟩, rfl⟩

/-! ### Claim theorems -/

/-- Claim C4: for every graph, including cyclic ones, the closure computation
(repeated boolean squaring of `direct_dependencies + Id`, stopping when the
nonzero count is unchanged between successive squarings) terminates: the
result is a fixed point of the squaring step, supplying the loop any fuel
beyond what `closureRun` grants changes nothing (the loop stops by its own
stop condition), and the number of squarings performed is at most
`log2ceil(n) + 1`, i.e. `O(log n)`. -/
theorem closure_terminates_in_log_squarings (g : Graph) :
    matMul g.n_nodes (closureOf g) (closureOf g) = closureOf g ∧
    (closureRun g).2 ≤ Nat.clog 2 g.n_nodes + 1 ∧
    ∀ fuel, g.n_nodes * g.n_nodes + 2 ≤ fuel →
      closureLoop g.n_nodes fuel (initialClosure g) 0 = closureRun g := by
  refine ⟨closure_fixpoint g, ?_, ?_⟩
  · rcases Nat.eq_zero_or_pos g.n_nodes with hn | hn
    · rw [closureRun_of_zero g hn]
      exact Nat.zero_le _
    · obtain ⟨T, hrun, hTlog, _, _, _⟩ := closureOf_run g hn
      rw [hrun]
      omega
  · rcases Nat.eq_zero_or_pos g.n_nodes with hn | hn
    · intro fuel hf
      rw [closureRun_of_zero g hn, initialClosure_of_zero g hn, hn]
      obtain ⟨f, rfl⟩ : ∃ f, fuel = f + 1 := ⟨fuel - 1, by omega⟩
      rw [closureLoop, if_pos (show (∅ : BoolMat).card = 0 from rfl)]
    · intro fuel hf
      obtain ⟨T, _, _, hTn, _, hfuel⟩ := closureOf_run g hn
      have hnn : g.n_nodes ≤ g.n_nodes * g.n_nodes := Nat.le_mul_of_pos_left g.n_nodes hn
      exact hfuel fuel (by omega)

/-- An example graph: two registered nodes (both of weight 0), node 1
directly depending on node 0. -/
def exampleChain2 : Graph :=
  ((Graph.init.add_node 0).add_node 0).add_node_dependency 1 0

/-- Witness for C4 at a cyclic two-node graph (0 and 1 depend on each other). -/
def exampleCycle2 : Graph :=
  (((Graph.init.add_node 0).add_node 0).add_node_dependency 1 0).add_node_dependency 0 1

theorem closure_terminates_in_log_squarings_witness :
    matMul exampleCycle2.n_nodes (closureOf exampleCycle2) (closureOf exampleCycle2) =
      closureOf exampleCycle2 ∧
    (closureRun exampleCycle2).2 ≤ Nat.clog 2 exampleCycle2.n_nodes + 1 ∧
    ∀ fuel, exampleCycle2.n_nodes * exampleCycle2.n_nodes + 2 ≤ fuel →
      closureLoop exampleCycle2.n_nodes fuel (initialClosure exampleCycle2) 0 =
        closureRun exampleCycle2 :=
  closure_terminates_in_log_squarings exampleCycle2

/-- Claim C1: after a refresh of a stale graph, the full-predecessor query of
any registered node `i` answers with a set that contains the direct
predecessors, consists exactly of the nodes reachable from `i` through any
chain of direct dependency edges (each step moving from a node to one of its
direct prerequisites), and never contains `i` itself. -/
theorem full_predecessors_spec (g : Graph) (i : ℕ) (hwf : g.WF) (hd : g.dirty = true)
    (hi : i < g.n_nodes) :
    ∃ S : Finset ℕ,
      (g.prepare).nodes_i_fully_depend_on i = some S ∧
      (g.prepare).nodes_i_depend_on i ⊆ S ∧
      (∀ p, p ∈ S ↔ p ≠ i ∧
        Relation.ReflTransGen (fun a b => (b, a) ∈ g.direct_dependencies) i p) ∧
      i ∉ S := by
  have hres := restrictedEdges_eq_of_wf hwf
  refine ⟨fullPredsOf g i, nodes_i_fully_prepare hd i, ?_, ?_, Finset.not_mem_erase i _⟩
  · intro q hq
    rw [Graph.nodes_i_depend_on, prepare_direct, ← Graph.nodes_i_depend_on,
      nodes_i_depend_on_mem] at hq
    have hq' : (q, i) ∈ restrictedEdges g := by rw [hres]; exact hq
    rw [fullPredsOf_mem]
    refine ⟨(hwf (q, i) hq).2.2, closure_mem.mpr ⟨(hwf (q, i) hq).1, hi, 1, ?_⟩⟩
    exact Or.inr ⟨q, rfl, hq'⟩
  · intro p
    rw [fullPredsOf_mem, closure_mem, ← hres]
    constructor
    · rintro ⟨hpi, hp, _, k, hreach⟩
      refine ⟨hpi, ?_⟩
      rw [show (fun a b => (b, a) ∈ restrictedEdges g) =
        Function.swap (fun a b => (a, b) ∈ restrictedEdges g) from rfl,
        Relation.reflTransGen_swap]
      exact reach_iff_reflTransGen.mp ⟨k, hreach⟩
    · rintro ⟨hpi, hRTG⟩
      rw [show (fun a b => (b, a) ∈ restrictedEdges g) =
        Function.swap (fun a b => (a, b) ∈ restrictedEdges g) from rfl,
        Relation.reflTransGen_swap] at hRTG
      obtain ⟨k, hreach⟩ := reach_iff_reflTransGen.mpr hRTG
      have hp : p < g.n_nodes := by
        rcases reach_source hreach with heq | ⟨e, he, h1⟩
        · exact absurd heq hpi
        · exact h1 ▸ (restrictedEdges_bounded g e he).1
      exact ⟨hpi, hp, hi, k, hreach⟩

theorem full_predecessors_spec_witness :
    exampleChain2.WF ∧ exampleChain2.dirty = true ∧ 1 < exampleChain2.n_nodes ∧
    (∃ S : Finset ℕ,
      (exampleChain2.prepare).nodes_i_fully_depend_on 1 = some S ∧
      (exampleChain2.prepare).nodes_i_depend_on 1 ⊆ S ∧
      (∀ p, p ∈ S ↔ p ≠ 1 ∧
        Relation.ReflTransGen (fun a b => (b, a) ∈ exampleChain2.direct_dependencies) 1 p) ∧
      1 ∉ S) :=
  ⟨by decide, by decide, by decide,
    full_predecessors_spec exampleChain2 1 (by decide) (by decide) (by decide)⟩

theorem fpOf_eq_sum {g : Graph} {j : ℕ} (hj : j < g.n_nodes) :
    fpOf g j =
      ∑ i ∈ Finset.range g.n_nodes,
        if (i, j) ∈ closureOf g then g.individual_pyorities.getD i 0 else 0 := by
  rw [fpOf, fullPyoritiesOf, List.getD_eq_getElem?_getD, List.getElem?_map,
    List.getElem?_range hj]
  rfl

/-- Claim C3: after refresh, the full pyority of every registered node `j`
equals the sum of the cached individual pyorities over `j`'s full-dependency
closure: `j`'s own cached weight (the identity term of the closure) plus the
cached weight of every node `j` transitively depends on. -/
theorem full_pyority_is_closure_sum (g : Graph) (j : ℕ) (hj : j < g.n_nodes) :
    fpOf g j =
      g.individual_pyorities.getD j 0 +
        ∑ i ∈ fullPredsOf g j, g.individual_pyorities.getD i 0 := by
  rw [fpOf_eq_sum hj, ← Finset.sum_filter]
  have hset : fullPredsOf g j =
      ((Finset.range g.n_nodes).filter (fun i => (i, j) ∈ closureOf g)).erase j := by
    ext p
    rw [fullPredsOf_mem, Finset.mem_erase, Finset.mem_filter, Finset.mem_range]
    constructor
    · rintro ⟨hpj, hmem⟩
      exact ⟨hpj, (closure_sub_range hmem).1, hmem⟩
    · rintro ⟨hpj, _, hmem⟩
      exact ⟨hpj, hmem⟩
  have hjmem : j ∈ (Finset.range g.n_nodes).filter (fun i => (i, j) ∈ closureOf g) := by
    rw [Finset.mem_filter, Finset.mem_range]
    exact ⟨hj, closure_refl hj⟩
  rw [hset, ← Finset.sum_erase_add _ _ hjmem]
  ring

theorem full_pyority_is_closure_sum_witness :
    1 < exampleChain2.n_nodes ∧
    fpOf exampleChain2 1 =
      exampleChain2.individual_pyorities.getD 1 0 +
        ∑ i ∈ fullPredsOf exampleChain2 1, exampleChain2.individual_pyorities.getD i 0 :=
  ⟨by decide, full_pyority_is_closure_sum exampleChain2 1 (by decide)⟩

theorem pyority_getD_nonneg {g : Graph} (hnn : ∀ q ∈ g.individual_pyorities, 0 ≤ q)
    (i : ℕ) : 0 ≤ g.individual_pyorities.getD i 0 := by
  rcases Nat.lt_or_ge i g.individual_pyorities.length with h | h
  · rw [List.getD_eq_getElem?_getD, List.getElem?_eq_getElem h]
    exact hnn _ (List.getElem_mem h)
  · rw [List.getD_eq_getElem?_getD, List.getElem?_eq_none h]
    exact le_refl 0

/-- Claim C10 (implicit): in a prepared graph with non-negative cached
weights, if `p` is among the full predecessors of `d` then the full pyority
of `d` is at least the full pyority of `p`, because `d`'s closure column
contains `p`'s closure column. -/
theorem full_pyority_monotone (g : Graph) (p d : ℕ)
    (hnn : ∀ q ∈ g.individual_pyorities, 0 ≤ q)
    (hp : p ∈ fullPredsOf g d) :
    fpOf g p ≤ fpOf g d := by
  have hpd : (p, d) ∈ closureOf g := (fullPredsOf_mem.mp hp).2
  have hplt : p < g.n_nodes := (closure_sub_range hpd).1
  have hdlt : d < g.n_nodes := (closure_sub_range hpd).2
  rw [fpOf_eq_sum hplt, fpOf_eq_sum hdlt, ← Finset.sum_filter, ← Finset.sum_filter]
  apply Finset.sum_le_sum_of_subset_of_nonneg
  · intro i hi
    rw [Finset.mem_filter, Finset.mem_range] at hi ⊢
    exact ⟨hi.1, closure_trans hi.2 hpd⟩
  · intro i _ _
    exact pyority_getD_nonneg hnn i

theorem full_pyority_monotone_witness :
    (∀ q ∈ exampleChain2.individual_pyorities, 0 ≤ q) ∧
    0 ∈ fullPredsOf exampleChain2 1 ∧
    fpOf exampleChain2 0 ≤ fpOf exampleChain2 1 :=
  ⟨by decide, by decide, full_pyority_monotone exampleChain2 0 1 (by decide) (by decide)⟩

theorem tripleLE_trans (a b c : ℚ × ℤ × ℕ) (h1 : tripleLE a b = true)
    (h2 : tripleLE b c = true) : tripleLE a c = true := by
  simp only [tripleLE, Bool.or_eq_true, Bool.and_eq_true, decide_eq_true_eq] at h1 h2 ⊢
  rcases h1 with h1 | ⟨he1, h1⟩
  · rcases h2 with h2 | ⟨he2, _⟩
    · exact Or.inl (lt_trans h1 h2)
    · exact Or.inl (he2 ▸ h1)
  · rcases h2 with h2 | ⟨he2, h2⟩
    · exact Or.inl (he1 ▸ h2)
    · refine Or.inr ⟨he1.trans he2, ?_⟩
      rcases h1 with h1 | ⟨hf1, h1⟩
      · rcases h2 with h2 | ⟨hf2, _⟩
        · exact Or.inl (lt_trans h1 h2)
        · exact Or.inl (hf2 ▸ h1)
      · rcases h2 with h2 | ⟨hf2, h2⟩
        · exact Or.inl (hf1 ▸ h2)
        · exact Or.inr ⟨hf1.trans hf2, le_trans h1 h2⟩

theorem tripleLE_total (a b : ℚ × ℤ × ℕ) : (tripleLE a b || tripleLE b a) = true := by
  simp only [tripleLE, Bool.or_eq_true, Bool.and_eq_true, decide_eq_true_eq]
  rcases lt_trichotomy a.1 b.1 with h | h | h
  · exact Or.inl (Or.inl h)
  · rcases lt_trichotomy a.2.1 b.2.1 with h2 | h2 | h2
    · exact Or.inl (Or.inr ⟨h, Or.inl h2⟩)
    · rcases le_total a.2.2 b.2.2 with h3 | h3
      · exact Or.inl (Or.inr ⟨h, Or.inr ⟨h2, h3⟩⟩)
      · exact Or.inr (Or.inr ⟨h.symm, Or.inr ⟨h2.symm, h3⟩⟩)
    · exact Or.inr (Or.inr ⟨h.symm, Or.inl h2⟩)
  · exact Or.inr (Or.inl h)

theorem sortKeys_third (g : Graph) :
    (sortKeys g).map (fun t => t.2.2) = List.range g.n_nodes := by
  rw [sortKeys, List.map_map]
  have hcomp : ((fun t : ℚ × ℤ × ℕ => t.2.2) ∘
      fun i => (-fpOf g i, (-(rowNnzOf g i : ℤ), i))) = fun i => i := rfl
  rw [hcomp, List.map_id']

theorem orderOf_perm (g : Graph) : (orderOf g).Perm (List.range g.n_nodes) := by
  rw [orderOf]
  have h2 := (List.mergeSort_perm (sortKeys g) tripleLE).map (fun t => t.2.2)
  rw [sortKeys_third] at h2
  exact h2

theorem orderOf_pairwise (g : Graph) :
    (orderOf g).Pairwise (fun a b =>
      fpOf g b < fpOf g a ∨
      (fpOf g a = fpOf g b ∧ rowNnzOf g b < rowNnzOf g a) ∨
      (fpOf g a = fpOf g b ∧ rowNnzOf g a = rowNnzOf g b ∧ a < b)) := by
  rw [orderOf, List.pairwise_map]
  have hsorted : ((sortKeys g).mergeSort tripleLE).Pairwise (fun x y => tripleLE x y = true) :=
    List.sorted_mergeSort tripleLE_trans tripleLE_total (sortKeys g)
  have hnodup : ((sortKeys g).mergeSort tripleLE).Pairwise (fun x y => x.2.2 ≠ y.2.2) := by
    have hperm := (List.mergeSort_perm (sortKeys g) tripleLE).map (fun t => t.2.2)
    rw [sortKeys_third] at hperm
    have hn : (((sortKeys g).mergeSort tripleLE).map (fun t => t.2.2)).Nodup :=
      (List.nodup_range g.n_nodes).perm hperm.symm
    rw [List.Nodup, List.pairwise_map] at hn
    exact hn
  have hmem : ∀ x ∈ (sortKeys g).mergeSort tripleLE,
      x = (-fpOf g x.2.2, (-(rowNnzOf g x.2.2 : ℤ), x.2.2)) := by
    intro x hx
    have hx' : x ∈ sortKeys g := ((List.mergeSort_perm (sortKeys g) tripleLE).mem_iff).mp hx
    rw [sortKeys, List.mem_map] at hx'
    obtain ⟨i, _, heq⟩ := hx'
    rw [← heq]
  refine (hsorted.and hnodup).imp_of_mem ?_
  intro x y hx hy hxy
  obtain ⟨hle, hne⟩ := hxy
  rw [hmem x hx, hmem y hy] at hle
  simp only [tripleLE, Bool.or_eq_true, Bool.and_eq_true, decide_eq_true_eq] at hle
  rcases hle with h | ⟨he, h2⟩
  · exact Or.inl (neg_lt_neg_iff.mp h)
  · have hfp : fpOf g x.2.2 = fpOf g y.2.2 := neg_inj.mp he
    rcases h2 with h2 | ⟨he2, h3⟩
    · refine Or.inr (Or.inl ⟨hfp, ?_⟩)
      have := neg_lt_neg_iff.mp h2
      exact_mod_cast this
    · refine Or.inr (Or.inr ⟨hfp, ?_, lt_of_le_of_ne h3 hne⟩)
      have := neg_inj.mp he2
      exact_mod_cast this

/-- Claim C2: iterating a stale graph refreshes the derived state first and
yields exactly `orderOf g`: a permutation of all registered node indices,
sorted by descending full pyority, ties broken by descending nonzero count
of the node's closure row, remaining ties broken by ascending insertion
index. -/
theorem iteration_order_spec (g : Graph) (hd : g.dirty = true) :
    g.iterNodes = orderOf g ∧
    (g.prepare).order = some (orderOf g) ∧
    (orderOf g).Perm (List.range g.n_nodes) ∧
    (orderOf g).Pairwise (fun a b =>
      fpOf g b < fpOf g a ∨
      (fpOf g a = fpOf g b ∧ rowNnzOf g b < rowNnzOf g a) ∨
      (fpOf g a = fpOf g b ∧ rowNnzOf g a = rowNnzOf g b ∧ a < b)) := by
  refine ⟨?_, prepare_order hd, orderOf_perm g, orderOf_pairwise g⟩
  rw [Graph.iterNodes, prepare_order hd]
  rfl

theorem iteration_order_spec_witness :
    exampleChain2.dirty = true ∧
    (exampleChain2.iterNodes = orderOf exampleChain2 ∧
    (exampleChain2.prepare).order = some (orderOf exampleChain2) ∧
    (orderOf exampleChain2).Perm (List.range exampleChain2.n_nodes) ∧
    (orderOf exampleChain2).Pairwise (fun a b =>
      fpOf exampleChain2 b < fpOf exampleChain2 a ∨
      (fpOf exampleChain2 a = fpOf exampleChain2 b ∧
        rowNnzOf exampleChain2 b < rowNnzOf exampleChain2 a) ∨
      (fpOf exampleChain2 a = fpOf exampleChain2 b ∧
        rowNnzOf exampleChain2 a = rowNnzOf exampleChain2 b ∧ a < b))) :=
  ⟨by decide, iteration_order_spec exampleChain2 (by decide)⟩

/-- Claim C6: registering the same (dependent, prerequisite) edge twice
between distinct registered nodes yields exactly the same graph state —
hence the same closure matrices and the same iteration order — as
registering it once. -/
theorem add_dependency_idem (g : Graph) (a b : ℕ) (_ha : a < g.n_nodes)
    (_hb : b < g.n_nodes) (_hab : a ≠ b) :
    (g.add_node_dependency a b).add_node_dependency a b = g.add_node_dependency a b ∧
    closureOf ((g.add_node_dependency a b).add_node_dependency a b) =
      closureOf (g.add_node_dependency a b) ∧
    orderOf ((g.add_node_dependency a b).add_node_dependency a b) =
      orderOf (g.add_node_dependency a b) ∧
    ((g.add_node_dependency a b).add_node_dependency a b).iterNodes =
      (g.add_node_dependency a b).iterNodes := by
  have h : (g.add_node_dependency a b).add_node_dependency a b =
      g.add_node_dependency a b := by
    simp [Graph.add_node_dependency, Finset.insert_idem]
  exact ⟨h, by rw [h], by rw [h], by rw [h]⟩

/-- An example graph with two registered nodes of weights 1 and 2 and no edges. -/
def exampleTwoNodes : Graph := (Graph.init.add_node 1).add_node 2

theorem add_dependency_idem_witness :
    1 < exampleTwoNodes.n_nodes ∧ 0 < exampleTwoNodes.n_nodes ∧ (1 : ℕ) ≠ 0 ∧
    ((exampleTwoNodes.add_node_dependency 1 0).add_node_dependency 1 0 =
      exampleTwoNodes.add_node_dependency 1 0 ∧
    closureOf ((exampleTwoNodes.add_node_dependency 1 0).add_node_dependency 1 0) =
      closureOf (exampleTwoNodes.add_node_dependency 1 0) ∧
    orderOf ((exampleTwoNodes.add_node_dependency 1 0).add_node_dependency 1 0) =
      orderOf (exampleTwoNodes.add_node_dependency 1 0) ∧
    ((exampleTwoNodes.add_node_dependency 1 0).add_node_dependency 1 0).iterNodes =
      (exampleTwoNodes.add_node_dependency 1 0).iterNodes) :=
  ⟨by decide, by decide, by decide,
    add_dependency_idem exampleTwoNodes 1 0 (by decide) (by decide) (by decide)⟩

/-- The state used to refute the refresh-on-query claim: two registered
nodes, a refresh, then one edge added (leaving the graph stale again). -/
def staleExample : Graph :=
  (((Graph.init.add_node 0).add_node 0).prepare).add_node_dependency 1 0

/-- Counterexample to claim C7 as stated: on the stale graph `staleExample`
the full-predecessor query does NOT trigger a refresh — it answers from the
closure cached by the earlier refresh and misses the direct edge `0 → 1`
that `nodes_i_depend_on` shows, while the same query after an explicit
refresh does include node 0. -/
theorem stale_query_counterexample :
    staleExample.dirty = true ∧
    0 ∈ staleExample.nodes_i_depend_on 1 ∧
    staleExample.nodes_i_fully_depend_on 1 = some ∅ ∧
    (staleExample.prepare).nodes_i_fully_depend_on 1 = some {0} :=
  ⟨by decide, by decide, by decide, by decide⟩

/-- Claim C7 amended: any mutation marks the graph stale, refresh recomputes
all derived state from the current nodes and edges and clears the flag,
refresh is a no-op on a fresh graph, and ordered iteration refreshes first;
the full-predecessor query, however, reads the cached closure without
refreshing. -/
theorem refresh_state_machine (g : Graph) (hd : g.dirty = true) :
    (g.prepare).dirty = false ∧
    (g.prepare).full_dependency = some (closureOf g) ∧
    (g.prepare).full_pyorities = some (fullPyoritiesOf g) ∧
    (g.prepare).order = some (orderOf g) ∧
    g.iterNodes = orderOf g ∧
    (∀ g' : Graph, g'.dirty = false → g'.prepare = g') ∧
    (∀ i, g.nodes_i_fully_depend_on i =
      g.full_dependency.map
        (fun M => ((M.filter (fun e => e.2 = i)).image Prod.fst).erase i)) := by
  refine ⟨prepare_dirty_false g, prepare_full_dependency hd, prepare_full_pyorities hd,
    prepare_order hd, ?_, fun g' h => prepare_of_clean h, fun i => rfl⟩
  rw [Graph.iterNodes, prepare_order hd]
  rfl

theorem refresh_state_machine_witness :
    staleExample.dirty = true ∧
    ((staleExample.prepare).dirty = false ∧
    (staleExample.prepare).full_dependency = some (closureOf staleExample) ∧
    (staleExample.prepare).full_pyorities = some (fullPyoritiesOf staleExample) ∧
    (staleExample.prepare).order = some (orderOf staleExample) ∧
    staleExample.iterNodes = orderOf staleExample ∧
    (∀ g' : Graph, g'.dirty = false → g'.prepare = g') ∧
    (∀ i, staleExample.nodes_i_fully_depend_on i =
      staleExample.full_dependency.map
        (fun M => ((M.filter (fun e => e.2 = i)).image Prod.fst).erase i))) :=
  ⟨by decide, refresh_state_machine staleExample (by decide)⟩

/-- The C5 scenario: `add_task(P, S1, S2)` on a fresh scheduler (the task
weights are irrelevant to the dependency structure; zero here). -/
def parentScenario : Graph × TaskNodePair := Scheduler.add_task Graph.init 0 [0, 0]

/-- Claim C5: `add_task(P, S1, S2)` on a fresh scheduler gives the pair
`(Start(P), End(P)) = (0, 1)` and subtask pairs `(2, 3)` and `(4, 5)`, wires
for each subtask the edges "subtask start depends on parent start" and
"parent end depends on subtask end", and after refresh the
full-predecessor set of `End(P)` contains `Start(P)`, `End(S1)`, `End(S2)`,
`Start(S1)`, `Start(S2)`, while that of `Start(S1)` contains `Start(P)`. -/
theorem add_task_subtask_wiring :
    parentScenario.2.start = 0 ∧ parentScenario.2.end_ = 1 ∧
    parentScenario.2.subtasks.map (fun q => (q.start, q.end_)) = [(2, 3), (4, 5)] ∧
    (0, 2) ∈ parentScenario.1.direct_dependencies ∧
    (3, 1) ∈ parentScenario.1.direct_dependencies ∧
    (0, 4) ∈ parentScenario.1.direct_dependencies ∧
    (5, 1) ∈ parentScenario.1.direct_dependencies ∧
    (parentScenario.1.prepare).nodes_i_fully_depend_on 1 =
      some (fullPredsOf parentScenario.1 1) ∧
    0 ∈ fullPredsOf parentScenario.1 1 ∧ 2 ∈ fullPredsOf parentScenario.1 1 ∧
    3 ∈ fullPredsOf parentScenario.1 1 ∧ 4 ∈ fullPredsOf parentScenario.1 1 ∧
    5 ∈ fullPredsOf parentScenario.1 1 ∧
    (parentScenario.1.prepare).nodes_i_fully_depend_on 2 =
      some (fullPredsOf parentScenario.1 2) ∧
    0 ∈ fullPredsOf parentScenario.1 2 := by
  decide

/-- Claim C8: a node whose wrapped data exposes a weight accessor returning
a negative value fails the precondition at weight computation time and never
returns a value — in particular the result is never a clamped zero. -/
theorem negative_pyority_fails (nd : GraphNode) (v : ℚ) (hv : nd.data.pyority = some v)
    (hneg : v < 0) :
    nd.pyority = Except.error PyErr.precondition ∧
    ∀ q : ℚ, nd.pyority ≠ Except.ok q := by
  have h : nd.pyority = Except.error PyErr.precondition := by
    simp only [GraphNode.pyority, hv, if_neg (not_le.mpr hneg)]
  refine ⟨h, fun q hq => ?_⟩
  rw [h] at hq
  exact Except.noConfusion hq

theorem negative_pyority_fails_witness :
    (GraphNode.mk ⟨some (-1)⟩).data.pyority = some (-1) ∧ (-1 : ℚ) < 0 ∧
    ((GraphNode.mk ⟨some (-1)⟩).pyority = Except.error PyErr.precondition ∧
      ∀ q : ℚ, (GraphNode.mk ⟨some (-1)⟩).pyority ≠ Except.ok q) :=
  ⟨rfl, by norm_num, negative_pyority_fails (GraphNode.mk ⟨some (-1)⟩) (-1) rfl (by norm_num)⟩

/-- Claim C9: for a Start/End pair whose links are unset, dereferencing
either link fails as not-yet-associated, a first set of either link
succeeds, and setting the same link a second time fails as invalid-state. -/
theorem link_set_once (s : TaskStart) (t : TaskEnd) (e e2 a a2 : ℕ)
    (hs : s.end_ = none) (ht : t.start_ = none) :
    s.get_end = Except.error LinkErr.notAssociated ∧
    t.get_start = Except.error LinkErr.notAssociated ∧
    s.set_end e = Except.ok { s with end_ := some e } ∧
    ({ s with end_ := some e } : TaskStart).set_end e2 = Except.error LinkErr.invalidState ∧
    t.set_start a = Except.ok { t with start_ := some a } ∧
    ({ t with start_ := some a } : TaskEnd).set_start a2 = Except.error LinkErr.invalidState := by
  refine ⟨?_, ?_, ?_, rfl, ?_, rfl⟩
  · simp only [TaskStart.get_end, hs]
  · simp only [TaskEnd.get_start, ht]
  · simp only [TaskStart.set_end, hs]
  · simp only [TaskEnd.set_start, ht]

theorem link_set_once_witness :
    (TaskStart.mk ⟨none⟩ none).end_ = none ∧ (TaskEnd.mk ⟨none⟩ none).start_ = none ∧
    ((TaskStart.mk ⟨none⟩ none).get_end = Except.error LinkErr.notAssociated ∧
    (TaskEnd.mk ⟨none⟩ none).get_start = Except.error LinkErr.notAssociated ∧
    (TaskStart.mk ⟨none⟩ none).set_end 7 =
      Except.ok { TaskStart.mk ⟨none⟩ none with end_ := some 7 } ∧
    ({ TaskStart.mk ⟨none⟩ none with end_ := some 7 } : TaskStart).set_end 8 =
      Except.error LinkErr.invalidState ∧
    (TaskEnd.mk ⟨none⟩ none).set_start 9 =
      Except.ok { TaskEnd.mk ⟨none⟩ none with start_ := some 9 } ∧
    ({ TaskEnd.mk ⟨none⟩ none with start_ := some 9 } : TaskEnd).set_start 10 =
      Except.error LinkErr.invalidState) :=
  ⟨rfl, rfl, link_set_once (TaskStart.mk ⟨none⟩ none) (TaskEnd.mk ⟨none⟩ none) 7 8 9 10 rfl rfl⟩

end Pyority
